import Mathlib

/-!
Verification of the `byteutils` Rust library (hex/UTF-8 codec, string
utilities, generic sequence utilities) against its specification.

Modelling conventions:
* A Rust `String`/`&str` is a `List Char` (Lean `Char` is a Unicode scalar
  value, exactly like Rust `char`).  Byte-level operations (`str::len`,
  `as_bytes`, `chunks`) act on the UTF-8 encoding, modelled by `strToUtf8`.
* Rust `u8` values are `Nat`s below 256; byte sequences are `List Nat`.
* Fallible functions return `Except String _` mirroring `Result<_, String>`.
* A function that can panic returns `Option _`; `none` models a panic.
* In-place vector operations are modelled by state passing: the function
  returns the new contents of the vector (plus its result, if any).
-/

namespace Byteutils

/-! ### UTF-8 encoding and decoding

`utf8EncodeChar` is the standard UTF-8 encoding of a Unicode scalar value,
as produced by Rust's `str::as_bytes`.  `utf8Decode` models the validation
and decoding performed by `std::str::from_utf8` / `String::from_utf8`:
it accepts exactly the well-formed UTF-8 byte sequences (rejecting
overlong forms, surrogates and values above U+10FFFF). -/

def utf8EncodeChar (n : Nat) : List Nat :=
  if n < 0x80 then [n]
  else if n < 0x800 then [0xC0 + n / 64, 0x80 + n % 64]
  else if n < 0x10000 then [0xE0 + n / 4096, 0x80 + n / 64 % 64, 0x80 + n % 64]
  else [0xF0 + n / 262144, 0x80 + n / 4096 % 64, 0x80 + n / 64 % 64, 0x80 + n % 64]

/-- The UTF-8 bytes of a string, i.e. Rust's `str::as_bytes`. -/
def strToUtf8 (s : List Char) : List Nat :=
  s.flatMap (fun c => utf8EncodeChar c.toNat)

/-- One step of UTF-8 validation, following the byte-range table used by
Rust's `core::str::validations`: decode the character encoded at the head
of the byte list, returning its scalar value and the remaining bytes, or
`none` if the head is ill-formed.  Lead bytes are `00..7F` (1 byte),
`C2..DF` (2 bytes), `E0..EF` (3 bytes, with the tightened second-byte
ranges for `E0`/`ED` that exclude overlong forms and surrogates) and
`F0..F4` (4 bytes, with the tightened second-byte ranges for `F0`/`F4`
that exclude overlong forms and values above U+10FFFF); continuation
bytes are `80..BF`. -/
def utf8Step (l : List Nat) : Option (Nat × List Nat) :=
  match l with
  | [] => none
  | b0 :: rest =>
    if b0 < 0x80 then some (b0, rest)
    else if b0 < 0xC2 then none
    else if b0 < 0xE0 then
      match rest with
      | b1 :: rest2 =>
        if 0x80 ≤ b1 ∧ b1 < 0xC0 then some ((b0 - 0xC0) * 64 + (b1 - 0x80), rest2) else none
      | [] => none
    else if b0 < 0xF0 then
      match rest with
      | b1 :: b2 :: rest3 =>
        if (if b0 = 0xE0 then 0xA0 else 0x80) ≤ b1 ∧
            b1 ≤ (if b0 = 0xED then 0x9F else 0xBF) ∧ 0x80 ≤ b2 ∧ b2 < 0xC0 then
          some ((b0 - 0xE0) * 4096 + (b1 - 0x80) * 64 + (b2 - 0x80), rest3)
        else none
      | _ => none
    else if b0 < 0xF5 then
      match rest with
      | b1 :: b2 :: b3 :: rest4 =>
        if (if b0 = 0xF0 then 0x90 else 0x80) ≤ b1 ∧
            b1 ≤ (if b0 = 0xF4 then 0x8F else 0xBF) ∧
            0x80 ≤ b2 ∧ b2 < 0xC0 ∧ 0x80 ≤ b3 ∧ b3 < 0xC0 then
          some ((b0 - 0xF0) * 262144 + (b1 - 0x80) * 4096 + (b2 - 0x80) * 64 + (b3 - 0x80), rest4)
        else none
      | _ => none
    else none

/-- The UTF-8 validation loop: repeatedly decode the head character.  The
`fuel` argument only serves to make the recursion structural; each step
consumes at least one byte, so any fuel of at least the byte count gives
the loop's true value (`utf8Decode` passes the byte count). -/
def utf8DecodeFuel : Nat → List Nat → Option (List Nat)
  | _, [] => some []
  | 0, _ :: _ => none
  | fuel + 1, b0 :: rest =>
    match utf8Step (b0 :: rest) with
    | none => none
    | some (n, rest2) => (utf8DecodeFuel fuel rest2).map (fun ns => n :: ns)

/-- UTF-8 validation and decoding into Unicode scalar values (`none` on
ill-formed input), as performed by `std::str::from_utf8` and
`String::from_utf8`. -/
def utf8Decode (l : List Nat) : Option (List Nat) :=
  utf8DecodeFuel l.length l

/-! ### `src/lib.rs`: the byte/hex/string codec -/

/-- The lowercase hex digit for a value below 16, as printed by the Rust
format specifier `{:02x}` in `bytes_to_hex`. -/
def hexDigitChar (n : Nat) : Char :=
  if n < 10 then Char.ofNat (48 + n) else Char.ofNat (87 + n)

/-- `bytes_to_hex` from `src/lib.rs`: each byte becomes two lowercase hex
digits (`format!("\x7b:02x\x7d", byte)`), concatenated in order. -/
def bytes_to_hex (bytes : List Nat) : List Char :=
  bytes.flatMap (fun b => [hexDigitChar (b / 16), hexDigitChar (b % 16)])

/-- `char::to_digit(16)` on a byte interpreted as a character, as used by
`u8::from_str_radix`: decimal digits, lowercase `a`-`f`, uppercase `A`-`F`. -/
def toDigit16 (b : Nat) : Option Nat :=
  if 48 ≤ b ∧ b ≤ 57 then some (b - 48)
  else if 97 ≤ b ∧ b ≤ 102 then some (b - 87)
  else if 65 ≤ b ∧ b ≤ 70 then some (b - 55)
  else none

/-- The digit-accumulation loop of `u8::from_str_radix(_, 16)`, including
the `u8` overflow check. -/
def radixFold : Nat → List Nat → Except String Nat
  | acc, [] => Except.ok acc
  | acc, b :: bs =>
    match toDigit16 b with
    | none => Except.error "invalid digit found in string"
    | some v =>
      if acc * 16 + v > 255 then Except.error "number too large to fit in target type"
      else radixFold (acc * 16 + v) bs

/-- `u8::from_str_radix(s, 16)` over the UTF-8 bytes of `s` (the Rust
implementation iterates over bytes): an empty string is an error; a single
leading `+` is accepted and stripped (`-` is not, `u8` being unsigned, and
a sign with no digits is an invalid-digit error); every remaining byte must
be a base-16 digit. -/
def fromStrRadix16 (bs : List Nat) : Except String Nat :=
  match bs with
  | [] => Except.error "cannot parse integer from empty string"
  | b :: rest =>
    if b = 43 then
      if rest.isEmpty then Except.error "invalid digit found in string"
      else radixFold 0 rest
    else radixFold 0 bs

/-- One loop iteration of `hex_to_bytes`:
`u8::from_str_radix(std::str::from_utf8(chunk).unwrap(), 16)`.
`none` models the panic of `.unwrap()` when the chunk is not valid UTF-8
(which happens when `chunks(2)` splits a multi-byte character). -/
def parseChunk (chunk : List Nat) : Option (Except String Nat) :=
  match utf8Decode chunk with
  | none => none
  | some _ => some (fromStrRadix16 chunk)

/-- The chunk loop of `hex_to_bytes` over the remaining bytes, with the
error prefixed as in `format!("Invalid hex string: \x7b\x7d", e)` and the
`?` early return.  A trailing 1-byte chunk (dead code: the length was
checked to be even) is processed like `chunks(2)` would. -/
def hexChunks : List Nat → Option (Except String (List Nat))
  | [] => some (Except.ok [])
  | [b] =>
    match parseChunk [b] with
    | none => none
    | some (Except.error e) => some (Except.error ("Invalid hex string: " ++ e))
    | some (Except.ok byte) => some (Except.ok [byte])
  | b0 :: b1 :: rest =>
    match parseChunk [b0, b1] with
    | none => none
    | some (Except.error e) => some (Except.error ("Invalid hex string: " ++ e))
    | some (Except.ok byte) =>
      match hexChunks rest with
      | none => none
      | some (Except.error e) => some (Except.error e)
      | some (Except.ok bytes) => some (Except.ok (byte :: bytes))

/-- `hex_to_bytes` from `src/lib.rs`.  `hex.len()` is the UTF-8 byte
length; `none` models a panic inside the loop. -/
def hex_to_bytes (hex : List Char) : Option (Except String (List Nat)) :=
  let bs := strToUtf8 hex
  if bs.length % 2 ≠ 0 then
    some (Except.error "Hex string must have an even number of characters")
  else hexChunks bs

/-- `bytes_to_string` from `src/lib.rs`: `String::from_utf8` with the error
mapped to a message. -/
def bytes_to_string (bytes : List Nat) : Except String (List Char) :=
  match utf8Decode bytes with
  | some ns => Except.ok (ns.map Char.ofNat)
  | none => Except.error "Invalid UTF-8 sequence: invalid utf-8 sequence"

/-- `string_to_bytes` from `src/lib.rs`: `s.as_bytes().to_vec()`. -/
def string_to_bytes (s : List Char) : List Nat :=
  strToUtf8 s

/-- `string_to_hex` from `src/lib.rs`: `bytes_to_hex(s.as_bytes())`. -/
def string_to_hex (s : List Char) : List Char :=
  bytes_to_hex (strToUtf8 s)

/-- `hex_to_string` from `src/lib.rs`: `bytes_to_string(&hex_to_bytes(hex)?)`,
propagating a panic of `hex_to_bytes` as `none`. -/
def hex_to_string (hex : List Char) : Option (Except String (List Char)) :=
  match hex_to_bytes hex with
  | none => none
  | some (Except.error e) => some (Except.error e)
  | some (Except.ok bytes) => some (bytes_to_string bytes)

/-! ### `src/string.rs`: string utilities -/

/-- Rust's `char::is_whitespace`: the Unicode `White_Space` code points,
as used by `str::trim`. -/
def isRustWhitespace (c : Char) : Bool :=
  c.toNat ∈ [0x09, 0x0A, 0x0B, 0x0C, 0x0D, 0x20, 0x85, 0xA0, 0x1680,
    0x2000, 0x2001, 0x2002, 0x2003, 0x2004, 0x2005, 0x2006, 0x2007, 0x2008,
    0x2009, 0x200A, 0x2028, 0x2029, 0x202F, 0x205F, 0x3000]

/-- Rust's `str::trim`: drop leading and trailing whitespace. -/
def trim (s : List Char) : List Char :=
  ((s.dropWhile isRustWhitespace).reverse.dropWhile isRustWhitespace).reverse

/-- Rust's `str::split(',')` iterator: the (possibly empty) pieces between
commas, in order.  Splitting the empty string yields one empty piece. -/
def splitComma : List Char → List (List Char)
  | [] => [[]]
  | c :: rest =>
    if c = ',' then [] :: splitComma rest
    else
      match splitComma rest with
      | [] => [[c]]
      | p :: ps => (c :: p) :: ps

/-- `to_array` from `src/string.rs`: split on commas, trim each piece,
drop the pieces that are empty after trimming. -/
def to_array (comma_separated_values : List Char) : List (List Char) :=
  (((splitComma comma_separated_values).map trim).filter (fun s => !s.isEmpty))

/-- Rust's `str::replace` with a single-character pattern: every occurrence
of the character `c` is replaced by `rep`; matches are found in the
original string, so replacement text is never rescanned. -/
def replaceCharBy (c : Char) (rep : List Char) (s : List Char) : List Char :=
  s.flatMap (fun x => if x = c then rep else [x])

/-- `escape_sql` from `src/string.rs`:
`input.replace(backslash, two backslashes).replace(quote, two quotes)` -
first a complete backslash-doubling pass, then a complete quote-doubling
pass over its output. -/
def escape_sql (input : List Char) : List Char :=
  replaceCharBy '\x27' ['\x27', '\x27'] (replaceCharBy '\\' ['\\', '\\'] input)

/-- `enclose_quotes` from `src/string.rs`: `format!("\x27\x7b\x7d\x27", name)`. -/
def enclose_quotes (name : List Char) : List Char :=
  '\x27' :: (name ++ ['\x27'])

/-- A regex word character in the ASCII range: `[0-9A-Za-z_]`.  (The regex
crate uses Unicode `\w`; this development only evaluates word-boundary
matching on ASCII text, where the two notions coincide.) -/
def isWordChar (c : Char) : Bool :=
  c.isAlphanum || c = '_'

/-- Whether position `i` of `src` holds a word character (out-of-range
positions count as non-word, like the edges of the haystack). -/
def wordAt (src : List Char) (i : Nat) : Bool :=
  match src.get? i with
  | some c => isWordChar c
  | none => false

/-- Whether a word character immediately precedes position `p`. -/
def wordBefore (src : List Char) : Nat → Bool
  | 0 => false
  | q + 1 => wordAt src q

/-- The regex `\b` assertion at position `p` of `src`: exactly one of the
two surrounding positions holds a word character. -/
def isBoundary (src : List Char) (p : Nat) : Bool :=
  wordBefore src p != wordAt src p

/-- Case-insensitive match (`(?i)` over ASCII, i.e. ASCII lowercasing) of
`word` against the slice of `src` starting at `i`. -/
def ciMatchAt (src word : List Char) (i : Nat) : Bool :=
  decide (i + word.length ≤ src.length) &&
    ((src.drop i).take word.length).map Char.toLower == word.map Char.toLower

/-- `is_contain_word` from `src/string.rs`: whether the regex
`(?i)\b<escaped word>\b` matches somewhere in `src`.  Since the escaped
word is a literal, a match is a case-insensitive occurrence of `word` with
a `\b` boundary at each end. -/
def is_contain_word (src word : List Char) : Bool :=
  (List.range (src.length + 1)).any
    (fun i => ciMatchAt src word i && isBoundary src i && isBoundary src (i + word.length))

/-- `has_contain_words` from `src/string.rs`: some word matches. -/
def has_contain_words (src : List Char) (words : List (List Char)) : Bool :=
  words.any (fun word => is_contain_word src word)

/-- Literal non-overlapping left-to-right replacement: every occurrence of
the pattern `p0 :: ptail` in the subject is replaced by `rep`, scanning
from the left and continuing after each replaced occurrence.  This is what
`Regex::replace_all` does for a literal (escaped) pattern, with `rep` the
per-match replacement text. -/
def replaceAll (p0 : Char) (ptail rep : List Char) : List Char → List Char
  | [] => []
  | c :: rest =>
    if c = p0 ∧ ptail = rest.take ptail.length then
      rep ++ replaceAll p0 ptail rep (rest.drop ptail.length)
    else c :: replaceAll p0 ptail rep rest
termination_by s => s.length
decreasing_by
  all_goals simp only [List.length_cons, List.length_drop]
  all_goals omega

/-- Capture-name characters accepted by the regex crate's replacement
interpolation: `[0-9A-Za-z_]`. -/
def isCapNameChar (c : Char) : Bool :=
  c.isAlphanum || c = '_'

/-- The regex crate's replacement-string interpolation, for a regex whose
only capture group is group 0 with matched text `m`: `$$` is a literal
dollar, `$name` / `$\x7bname\x7d` is replaced by `m` when the name is `0`
and by the empty string otherwise (no other group exists), and a dollar
that does not start a well-formed reference is kept literally. -/
def expandRep (m : List Char) : List Char → List Char
  | [] => []
  | c :: rest =>
    if c = '$' then
      match rest with
      | [] => ['$']
      | '$' :: rest2 => '$' :: expandRep m rest2
      | '\x7b' :: rest2 =>
        if (rest2.dropWhile isCapNameChar).head? = some '\x7d' ∧
            ¬(rest2.takeWhile isCapNameChar).isEmpty then
          (if rest2.takeWhile isCapNameChar = ['0'] then m else []) ++
            expandRep m (rest2.dropWhile isCapNameChar).tail
        else '$' :: expandRep m ('\x7b' :: rest2)
      | d :: rest2 =>
        if isCapNameChar d then
          (if d = '0' ∧ rest2.takeWhile isCapNameChar = [] then m else []) ++
            expandRep m (rest2.dropWhile isCapNameChar)
        else '$' :: expandRep m (d :: rest2)
    else c :: expandRep m rest
termination_by s => s.length
decreasing_by
  all_goals simp only [List.length_cons, List.length_drop, List.length_tail]
  all_goals try omega
  all_goals
    (have h2 := (List.dropWhile_sublist (l := rest2) isCapNameChar).length_le
     omega)

/-- `replace_placeholder` from `src/string.rs`: build the literal pattern
`\x7b\x7b<placeholder>\x7d\x7d` (the placeholder is `regex::escape`d, so it
matches itself literally) and apply `Regex::replace_all`, which replaces
each non-overlapping leftmost occurrence by the interpolation of
`replacement` (the regex only has capture group 0, whose matched text is
always the pattern itself). -/
def replace_placeholder (input placeholder replacement : List Char) : List Char :=
  replaceAll '\x7b' ('\x7b' :: (placeholder ++ ['\x7d', '\x7d']))
    (expandRep ('\x7b' :: '\x7b' :: (placeholder ++ ['\x7d', '\x7d'])) replacement) input

/-! ### `src/vec.rs`: generic sequence utilities

`HashSet<T>` is modelled as the list of elements inserted so far, with
`insert` returning whether the element was new; this captures exactly the
membership behaviour the source relies on. -/

/-- The `retain` pass of `dedup`: keep an element iff inserting it into the
seen-set succeeds (i.e. it was not seen before). -/
def dedupGo {α : Type u} [DecidableEq α] (seen : List α) : List α → List α
  | [] => []
  | e :: rest => if e ∈ seen then dedupGo seen rest else e :: dedupGo (e :: seen) rest

/-- `dedup` from `src/vec.rs` (in-place; the returned list is the vector's
new contents): `v.retain(|e| uniques.insert(*e))`. -/
def dedup {α : Type u} [DecidableEq α] (v : List α) : List α :=
  dedupGo [] v

/-- The loop of `get_unique`: push each item whose insertion into the
seen-set succeeds onto the result vector. -/
def getUniqueGo {α : Type u} [DecidableEq α] (seen result : List α) : List α → List α
  | [] => result
  | item :: rest =>
    if item ∈ seen then getUniqueGo seen result rest
    else getUniqueGo (item :: seen) (result ++ [item]) rest

/-- `get_unique` from `src/vec.rs` (non-mutating: it only reads `input`). -/
def get_unique {α : Type u} [DecidableEq α] (input : List α) : List α :=
  getUniqueGo [] [] input

/-- `retain_if` from `src/vec.rs` (in-place; returns the new contents). -/
def retain_if {α : Type u} (v : List α) (predicate : α → Bool) : List α :=
  v.filter predicate

/-- `reverse_in_place` from `src/vec.rs` (in-place; returns the new
contents).  The pairwise swap loop `v.swap(i, len-1-i)` for
`i < len / 2` reverses the list. -/
def reverse_in_place {α : Type u} (v : List α) : List α :=
  v.reverse

/-- `split_at_vec` from `src/vec.rs`: panics (`none`) when `at > v.len()`,
otherwise clones the two halves produced by `split_at_mut`.  The result is
`((left, right), final contents of v)`; the source only reads through the
mutable borrow, so the final contents are the original ones. -/
def split_at_vec {α : Type u} (v : List α) (i : Nat) : Option ((List α × List α) × List α) :=
  if i > v.length then none
  else some ((v.take i, v.drop i), v)

/-! ### Specification-side definitions

These restate, in the spec's own vocabulary, what the claims say the
functions do; the claim theorems relate them to the source translations
above. -/

/-- Spec vocabulary: a base-16 digit byte, case-insensitive
(`[0-9a-fA-F]`). -/
def isHexDigitByte (b : Nat) : Bool :=
  decide ((48 ≤ b ∧ b ≤ 57) ∨ (97 ≤ b ∧ b ≤ 102) ∨ (65 ≤ b ∧ b ≤ 70))

/-- Spec vocabulary: the value of a base-16 digit byte. -/
def hexDigitVal (b : Nat) : Nat :=
  if b ≤ 57 then b - 48 else if 97 ≤ b then b - 87 else b - 55

/-- Spec vocabulary: a two-byte chunk that `u8::from_str_radix` accepts:
either two hex digits, or a leading `+` (byte 43) followed by one hex
digit. -/
def goodChunk (b0 b1 : Nat) : Bool :=
  (isHexDigitByte b0 && isHexDigitByte b1) || (decide (b0 = 43) && isHexDigitByte b1)

/-- Spec vocabulary: the byte value of an accepted two-byte chunk. -/
def goodChunkVal (b0 b1 : Nat) : Nat :=
  if b0 = 43 then hexDigitVal b1 else hexDigitVal b0 * 16 + hexDigitVal b1

/-- Spec vocabulary: a two-byte chunk that is valid UTF-8 on its own
(so `from_utf8` does not panic on it): two ASCII bytes, or one two-byte
encoded character. -/
def validUtf8Chunk (b0 b1 : Nat) : Bool :=
  (decide (b0 < 0x80) && decide (b1 < 0x80)) ||
    (decide (0xC2 ≤ b0) && decide (b0 ≤ 0xDF) && decide (0x80 ≤ b1) && decide (b1 ≤ 0xBF))

/-- The amended claim C1 as a function: odd byte length is an error;
otherwise scan the two-byte chunks left to right - an accepted chunk
contributes its byte value, a chunk that is valid UTF-8 but not accepted
stops with an invalid-digit error, and a chunk that splits a multi-byte
character panics (`none`).  (The dead singleton-chunk case mirrors
`hexChunks`.) -/
def specHexScan : List Nat → Option (Except String (List Nat))
  | [] => some (Except.ok [])
  | [b] =>
    if isHexDigitByte b then some (Except.ok [hexDigitVal b])
    else if b < 0x80 then
      some (Except.error "Invalid hex string: invalid digit found in string")
    else none
  | b0 :: b1 :: rest =>
    if goodChunk b0 b1 then
      match specHexScan rest with
      | none => none
      | some (Except.error e) => some (Except.error e)
      | some (Except.ok bytes) => some (Except.ok (goodChunkVal b0 b1 :: bytes))
    else if validUtf8Chunk b0 b1 then
      some (Except.error "Invalid hex string: invalid digit found in string")
    else none

/-- The spec-side restatement of (amended) claim C1. -/
def spec_hex_to_bytes (hex : List Char) : Option (Except String (List Nat)) :=
  let bs := strToUtf8 hex
  if bs.length % 2 = 1 then
    some (Except.error "Hex string must have an even number of characters")
  else specHexScan bs

/-- The chunk scan of the strict reading of claim C1: every two-byte chunk
must be two case-insensitive hex digits, else the whole input is
rejected. -/
def claimHexScanStrict : List Nat → Except String (List Nat)
  | [] => Except.ok []
  | [_] => Except.error "Invalid hex string: invalid digit found in string"
  | b0 :: b1 :: rest =>
    if isHexDigitByte b0 && isHexDigitByte b1 then
      match claimHexScanStrict rest with
      | Except.error e => Except.error e
      | Except.ok bytes => Except.ok ((hexDigitVal b0 * 16 + hexDigitVal b1) :: bytes)
    else Except.error "Invalid hex string: invalid digit found in string"

/-- The strict reading of claim C1 as written: odd length or any chunk
that is not two case-insensitive hex digits is an error; otherwise one
byte per chunk.  (No panic, no `+` chunks.) -/
def claimHexToBytesStrict (hex : List Char) : Except String (List Nat) :=
  let bs := strToUtf8 hex
  if bs.length % 2 = 1 then
    Except.error "Hex string must have an even number of characters"
  else claimHexScanStrict bs

/-- The spec-side restatement of claim C3: plain literal replacement of
`\x7b\x7b<name>\x7d\x7d` by the replacement value inserted verbatim. -/
def spec_replace_placeholder (input placeholder replacement : List Char) : List Char :=
  replaceAll '\x7b' ('\x7b' :: (placeholder ++ ['\x7d', '\x7d'])) replacement input

/-- The spec-side restatement of claim C9's matcher, with the regex `\b`
boundary semantics: a case-insensitive occurrence of `word` with a word
boundary (word-char/non-word-char transition) at each end. -/
def SpecContainWord (src word : List Char) : Prop :=
  ∃ i, ciMatchAt src word i = true ∧ isBoundary src i = true ∧
    isBoundary src (i + word.length) = true

/-- Claim C9's boundary condition as literally written: the occurrence is
"bounded on both sides by a non-word character or the string edge". -/
def claimContainWord (src word : List Char) : Bool :=
  (List.range (src.length + 1)).any
    (fun i => ciMatchAt src word i &&
      (decide (i = 0) || !wordAt src (i - 1)) &&
      (decide (i + word.length = src.length) || !wordAt src (i + word.length)))

/-- The spec-side restatement of claim C10: a single pass doubling
backslashes and quotes. -/
def spec_escape_sql (input : List Char) : List Char :=
  input.flatMap (fun c =>
    if c = '\\' then ['\\', '\\']
    else if c = '\x27' then ['\x27', '\x27']
    else [c])

/-! ### Lemmas: UTF-8 round trip and hex chunk analysis -/

theorem char_toNat_lt (c : Char) : c.toNat < 0x110000 ∧ ¬(0xD800 ≤ c.toNat ∧ c.toNat ≤ 0xDFFF) := by
  have h := c.valid
  have he : c.toNat = c.val.toNat := rfl
  rcases h with h | ⟨h1, h2⟩
  · rw [he]
    exact ⟨by omega, by omega⟩
  · rw [he]
    exact ⟨h2, by omega⟩

theorem utf8EncodeChar_pos (n : Nat) : 0 < (utf8EncodeChar n).length := by
  unfold utf8EncodeChar
  split_ifs <;> simp

theorem utf8Step_encodeChar (c : Char) (bs : List Nat) :
    utf8Step (utf8EncodeChar c.toNat ++ bs) = some (c.toNat, bs) := by
  obtain ⟨hlt, hsur⟩ := char_toNat_lt c
  set n := c.toNat with hn
  by_cases h1 : n < 0x80
  · have he : utf8EncodeChar n = [n] := by unfold utf8EncodeChar; rw [if_pos h1]
    rw [he]
    simp only [List.cons_append, List.nil_append]
    unfold utf8Step
    dsimp only
    rw [if_pos h1]
  · by_cases h2 : n < 0x800
    · have he : utf8EncodeChar n = [0xC0 + n / 64, 0x80 + n % 64] := by
        unfold utf8EncodeChar
        rw [if_neg h1, if_pos h2]
      rw [he]
      simp only [List.cons_append, List.nil_append]
      unfold utf8Step
      dsimp only
      rw [if_neg (by omega), if_neg (by omega), if_pos (by omega), if_pos (by omega)]
      have hv : (0xC0 + n / 64 - 0xC0) * 64 + (0x80 + n % 64 - 0x80) = n := by omega
      rw [hv]
    · by_cases h3 : n < 0x10000
      · have he : utf8EncodeChar n = [0xE0 + n / 4096, 0x80 + n / 64 % 64, 0x80 + n % 64] := by
          unfold utf8EncodeChar
          rw [if_neg h1, if_neg h2, if_pos h3]
        rw [he]
        simp only [List.cons_append, List.nil_append]
        unfold utf8Step
        dsimp only
        rw [if_neg (by omega), if_neg (by omega), if_neg (by omega), if_pos (by omega)]
        have hcond : ((if (0xE0 + n / 4096 : Nat) = 0xE0 then (0xA0 : Nat) else 0x80) ≤
            0x80 + n / 64 % 64) ∧ (0x80 + n / 64 % 64 ≤
              (if (0xE0 + n / 4096 : Nat) = 0xED then (0x9F : Nat) else 0xBF)) ∧
            0x80 ≤ 0x80 + n % 64 ∧ 0x80 + n % 64 < 0xC0 := by
          refine ⟨?_, ?_, by omega, by omega⟩
          · split <;> omega
          · split <;> omega
        rw [if_pos hcond]
        have hv : (0xE0 + n / 4096 - 0xE0) * 4096 + (0x80 + n / 64 % 64 - 0x80) * 64 +
            (0x80 + n % 64 - 0x80) = n := by omega
        rw [hv]
      · have he : utf8EncodeChar n =
            [0xF0 + n / 262144, 0x80 + n / 4096 % 64, 0x80 + n / 64 % 64, 0x80 + n % 64] := by
          unfold utf8EncodeChar
          rw [if_neg h1, if_neg h2, if_neg h3]
        rw [he]
        simp only [List.cons_append, List.nil_append]
        unfold utf8Step
        dsimp only
        rw [if_neg (by omega), if_neg (by omega), if_neg (by omega), if_neg (by omega),
          if_pos (by omega)]
        have hcond : ((if (0xF0 + n / 262144 : Nat) = 0xF0 then (0x90 : Nat) else 0x80) ≤
            0x80 + n / 4096 % 64) ∧ (0x80 + n / 4096 % 64 ≤
              (if (0xF0 + n / 262144 : Nat) = 0xF4 then (0x8F : Nat) else 0xBF)) ∧
            0x80 ≤ 0x80 + n / 64 % 64 ∧ 0x80 + n / 64 % 64 < 0xC0 ∧
            0x80 ≤ 0x80 + n % 64 ∧ 0x80 + n % 64 < 0xC0 := by
          refine ⟨?_, ?_, by omega, by omega, by omega, by omega⟩
          · split <;> omega
          · split <;> omega
        rw [if_pos hcond]
        have hv : (0xF0 + n / 262144 - 0xF0) * 262144 + (0x80 + n / 4096 % 64 - 0x80) * 4096 +
            (0x80 + n / 64 % 64 - 0x80) * 64 + (0x80 + n % 64 - 0x80) = n := by omega
        rw [hv]



theorem strToUtf8_nil : strToUtf8 [] = [] := rfl

theorem strToUtf8_cons (c : Char) (s : List Char) :
    strToUtf8 (c :: s) = utf8EncodeChar c.toNat ++ strToUtf8 s := by
  simp [strToUtf8]

theorem utf8DecodeFuel_strToUtf8 (s : List Char) : ∀ (fuel : Nat),
    (strToUtf8 s).length ≤ fuel →
    utf8DecodeFuel fuel (strToUtf8 s) = some (s.map Char.toNat) := by
  induction s with
  | nil =>
    intro fuel _
    rw [strToUtf8_nil]
    match fuel with
    | 0 => rfl
    | f + 1 => rfl
  | cons c s ih =>
    intro fuel hf
    rw [strToUtf8_cons] at hf ⊢
    have hpos := utf8EncodeChar_pos c.toNat
    match hfe : fuel with
    | 0 =>
      exfalso
      rw [List.length_append] at hf
      omega
    | f + 1 =>
      match hee : utf8EncodeChar c.toNat with
      | [] => rw [hee] at hpos; simp at hpos
      | e0 :: etail =>
        have hstep := utf8Step_encodeChar c (strToUtf8 s)
        rw [hee] at hstep
        simp only [List.cons_append]
        rw [utf8DecodeFuel]
        rw [List.cons_append] at hstep
        rw [hstep]
        dsimp only
        have hlen : (strToUtf8 s).length ≤ f := by
          rw [hee] at hf
          rw [List.length_append] at hf
          simp only [List.length_cons] at hf
          omega
        rw [ih f hlen]
        simp

theorem utf8Decode_strToUtf8 (s : List Char) :
    utf8Decode (strToUtf8 s) = some (s.map Char.toNat) := by
  rw [utf8Decode]
  exact utf8DecodeFuel_strToUtf8 s _ le_rfl

theorem bytes_to_string_strToUtf8 (s : List Char) :
    bytes_to_string (strToUtf8 s) = Except.ok s := by
  rw [bytes_to_string, utf8Decode_strToUtf8]
  have : List.map (Char.ofNat ∘ Char.toNat) s = List.map id s := by
    apply List.map_congr_left
    intro a _
    simp [Function.comp, Char.ofNat_toNat]
  simp [List.map_map, this]



theorem utf8EncodeChar_ascii (n : Nat) (h : n < 0x80) : utf8EncodeChar n = [n] := by
  unfold utf8EncodeChar
  rw [if_pos h]

theorem toNat_hexDigitChar (n : Nat) (h : n < 16) :
    (hexDigitChar n).toNat = if n < 10 then 48 + n else 87 + n := by
  interval_cases n <;> decide

theorem toDigit16_hexDigitChar (n : Nat) (h : n < 16) :
    toDigit16 (hexDigitChar n).toNat = some n := by
  interval_cases n <;> decide

theorem hexDigitChar_ascii (n : Nat) (h : n < 16) : (hexDigitChar n).toNat < 0x80 := by
  interval_cases n <;> decide

theorem utf8Decode_two_ascii (b0 b1 : Nat) (h0 : b0 < 0x80) (h1 : b1 < 0x80) :
    utf8Decode [b0, b1] = some [b0, b1] := by
  rw [utf8Decode]
  show utf8DecodeFuel 2 [b0, b1] = some [b0, b1]
  rw [utf8DecodeFuel]
  have hs0 : utf8Step [b0, b1] = some (b0, [b1]) := by
    unfold utf8Step
    dsimp only
    rw [if_pos h0]
  rw [hs0]
  dsimp only
  rw [utf8DecodeFuel]
  have hs1 : utf8Step [b1] = some (b1, []) := by
    unfold utf8Step
    dsimp only
    rw [if_pos h1]
  rw [hs1]
  rfl

theorem parseChunk_digit_pair (hi lo : Nat) (hhi : hi < 16) (hlo : lo < 16) :
    parseChunk [(hexDigitChar hi).toNat, (hexDigitChar lo).toNat] =
      some (Except.ok (hi * 16 + lo)) := by
  rw [parseChunk]
  rw [utf8Decode_two_ascii _ _ (hexDigitChar_ascii hi hhi) (hexDigitChar_ascii lo hlo)]
  have hne : ¬((hexDigitChar hi).toNat = 43) := by
    rw [toNat_hexDigitChar hi hhi]
    split <;> omega
  rw [fromStrRadix16]
  dsimp only
  rw [if_neg hne]
  rw [radixFold]
  rw [toDigit16_hexDigitChar hi hhi]
  dsimp only
  rw [if_neg (by omega)]
  rw [radixFold]
  rw [toDigit16_hexDigitChar lo hlo]
  dsimp only
  rw [if_neg (by omega)]
  rw [radixFold]
  all_goals simp

theorem bytes_to_hex_nil : bytes_to_hex [] = [] := rfl

theorem bytes_to_hex_cons (x : Nat) (tl : List Nat) :
    bytes_to_hex (x :: tl) = hexDigitChar (x / 16) :: hexDigitChar (x % 16) :: bytes_to_hex tl := by
  simp [bytes_to_hex]

theorem hexChunks_bytes_to_hex (b : List Nat) (hb : ∀ x ∈ b, x < 256) :
    hexChunks (strToUtf8 (bytes_to_hex b)) = some (Except.ok b) := by
  induction b with
  | nil => rfl
  | cons x tl ih =>
    have hx : x < 256 := hb x (by simp)
    have hhi : x / 16 < 16 := by omega
    have hlo : x % 16 < 16 := by omega
    rw [bytes_to_hex_cons, strToUtf8_cons, strToUtf8_cons]
    rw [utf8EncodeChar_ascii _ (hexDigitChar_ascii _ hhi),
      utf8EncodeChar_ascii _ (hexDigitChar_ascii _ hlo)]
    simp only [List.cons_append, List.nil_append]
    rw [hexChunks]
    rw [parseChunk_digit_pair _ _ hhi hlo]
    dsimp only
    rw [ih (fun y hy => hb y (by simp [hy]))]
    dsimp only
    have : x / 16 * 16 + x % 16 = x := by omega
    rw [this]

theorem length_bytes_to_hex (b : List Nat) : (bytes_to_hex b).length = 2 * b.length := by
  induction b with
  | nil => rfl
  | cons x tl ih =>
    rw [bytes_to_hex_cons]
    simp only [List.length_cons, ih]
    omega

theorem length_strToUtf8_ascii (s : List Char) (h : ∀ c ∈ s, c.toNat < 0x80) :
    (strToUtf8 s).length = s.length := by
  induction s with
  | nil => rfl
  | cons c tl ih =>
    rw [strToUtf8_cons, utf8EncodeChar_ascii _ (h c (by simp))]
    simp only [List.cons_append, List.nil_append, List.length_cons]
    rw [ih (fun y hy => h y (by simp [hy]))]

theorem bytes_to_hex_ascii (b : List Nat) (hb : ∀ x ∈ b, x < 256) :
    ∀ c ∈ bytes_to_hex b, c.toNat < 0x80 := by
  induction b with
  | nil => simp [bytes_to_hex_nil]
  | cons x tl ih =>
    have hx : x < 256 := hb x (by simp)
    rw [bytes_to_hex_cons]
    intro c hc
    simp only [List.mem_cons] at hc
    rcases hc with rfl | rfl | hc
    · exact hexDigitChar_ascii _ (by omega)
    · exact hexDigitChar_ascii _ (by omega)
    · exact ih (fun y hy => hb y (by simp [hy])) c hc

theorem hex_to_bytes_bytes_to_hex (b : List Nat) (hb : ∀ x ∈ b, x < 256) :
    hex_to_bytes (bytes_to_hex b) = some (Except.ok b) := by
  rw [hex_to_bytes]
  have hlen : (strToUtf8 (bytes_to_hex b)).length = 2 * b.length := by
    rw [length_strToUtf8_ascii _ (bytes_to_hex_ascii b hb), length_bytes_to_hex]
  simp only [hlen]
  rw [if_neg (by omega)]
  exact hexChunks_bytes_to_hex b hb



theorem toDigit16_eq (b : Nat) :
    toDigit16 b = if isHexDigitByte b = true then some (hexDigitVal b) else none := by
  rw [toDigit16, isHexDigitByte, hexDigitVal]
  split_ifs <;> simp_all <;> omega

theorem hexDigitVal_lt (b : Nat) (h : isHexDigitByte b = true) : hexDigitVal b < 16 := by
  rw [isHexDigitByte] at h
  rw [hexDigitVal]
  simp at h
  split_ifs <;> omega

theorem utf8Step_pair (b0 b1 : Nat) :
    utf8Step [b0, b1] =
      if b0 < 0x80 then some (b0, [b1])
      else if 0xC2 ≤ b0 ∧ b0 ≤ 0xDF ∧ 0x80 ≤ b1 ∧ b1 ≤ 0xBF then
        some ((b0 - 0xC0) * 64 + (b1 - 0x80), [])
      else none := by
  unfold utf8Step
  dsimp only
  split_ifs <;> first | rfl | omega

theorem utf8Step_single (b : Nat) :
    utf8Step [b] = if b < 0x80 then some (b, []) else none := by
  unfold utf8Step
  dsimp only
  split_ifs <;> rfl

theorem utf8Decode_pair (b0 b1 : Nat) :
    utf8Decode [b0, b1] =
      if b0 < 0x80 ∧ b1 < 0x80 then some [b0, b1]
      else if 0xC2 ≤ b0 ∧ b0 ≤ 0xDF ∧ 0x80 ≤ b1 ∧ b1 ≤ 0xBF then
        some [(b0 - 0xC0) * 64 + (b1 - 0x80)]
      else none := by
  rw [utf8Decode]
  show utf8DecodeFuel 2 [b0, b1] = _
  rw [utf8DecodeFuel, utf8Step_pair]
  by_cases h0 : b0 < 0x80
  · rw [if_pos h0]
    dsimp only
    rw [utf8DecodeFuel, utf8Step_single]
    by_cases h1 : b1 < 0x80
    · rw [if_pos h1, if_pos ⟨h0, h1⟩]
      rfl
    · rw [if_neg h1, if_neg (by omega), if_neg (by omega)]
      rfl
  · rw [if_neg h0]
    by_cases h2 : 0xC2 ≤ b0 ∧ b0 ≤ 0xDF ∧ 0x80 ≤ b1 ∧ b1 ≤ 0xBF
    · rw [if_pos h2, if_neg (by omega), if_pos h2]
      rfl
    · rw [if_neg h2, if_neg (by omega), if_neg h2]



theorem goodChunk_ascii (b0 b1 : Nat) (h : goodChunk b0 b1 = true) : b0 < 0x80 ∧ b1 < 0x80 := by
  rw [goodChunk, isHexDigitByte, isHexDigitByte] at h
  simp at h
  omega

theorem validUtf8Chunk_iff (b0 b1 : Nat) : validUtf8Chunk b0 b1 = true ↔
    ((b0 < 0x80 ∧ b1 < 0x80) ∨ (0xC2 ≤ b0 ∧ b0 ≤ 0xDF ∧ 0x80 ≤ b1 ∧ b1 ≤ 0xBF)) := by
  rw [validUtf8Chunk]
  simp
  omega

theorem fromStrRadix16_pair (b0 b1 : Nat) :
    fromStrRadix16 [b0, b1] =
      if goodChunk b0 b1 = true then Except.ok (goodChunkVal b0 b1)
      else Except.error "invalid digit found in string" := by
  rw [fromStrRadix16]
  try dsimp only
  by_cases h43 : b0 = 43
  · rw [if_pos h43, if_neg (by simp)]
    rw [radixFold, toDigit16_eq]
    by_cases hd : isHexDigitByte b1 = true
    · rw [if_pos hd]
      dsimp only
      rw [if_neg (by have := hexDigitVal_lt b1 hd; omega)]
      rw [radixFold]
      have hg : goodChunk b0 b1 = true := by
        rw [goodChunk]
        simp [h43, hd]
      rw [if_pos hg, goodChunkVal, if_pos h43]
      simp
    · rw [if_neg hd]
      have hg : ¬goodChunk b0 b1 = true := by
        rw [goodChunk]
        simp [hd]
      rw [if_neg hg]
  · rw [if_neg h43]
    rw [radixFold, toDigit16_eq]
    by_cases hd0 : isHexDigitByte b0 = true
    · rw [if_pos hd0]
      dsimp only
      rw [if_neg (by have := hexDigitVal_lt b0 hd0; omega)]
      rw [radixFold, toDigit16_eq]
      by_cases hd1 : isHexDigitByte b1 = true
      · rw [if_pos hd1]
        dsimp only
        rw [if_neg (by
          have h0 := hexDigitVal_lt b0 hd0
          have h1 := hexDigitVal_lt b1 hd1
          omega)]
        rw [radixFold]
        have hg : goodChunk b0 b1 = true := by
          rw [goodChunk]
          simp [hd0, hd1]
        rw [if_pos hg, goodChunkVal, if_neg h43]
        simp
      · rw [if_neg hd1]
        have hg : ¬goodChunk b0 b1 = true := by
          rw [goodChunk]
          simp [hd1]
        rw [if_neg hg]
    · rw [if_neg hd0]
      have hg : ¬goodChunk b0 b1 = true := by
        rw [goodChunk]
        simp [hd0, h43]
      rw [if_neg hg]

theorem parseChunk_pair (b0 b1 : Nat) :
    parseChunk [b0, b1] =
      if goodChunk b0 b1 = true then some (Except.ok (goodChunkVal b0 b1))
      else if validUtf8Chunk b0 b1 = true then
        some (Except.error "invalid digit found in string")
      else none := by
  rw [parseChunk, utf8Decode_pair]
  by_cases hv : b0 < 0x80 ∧ b1 < 0x80
  · rw [if_pos hv]
    dsimp only
    rw [fromStrRadix16_pair]
    by_cases hg : goodChunk b0 b1 = true
    · rw [if_pos hg, if_pos hg]
    · rw [if_neg hg, if_neg hg,
        if_pos (show validUtf8Chunk b0 b1 = true from (validUtf8Chunk_iff b0 b1).mpr (Or.inl hv))]
  · rw [if_neg hv]
    by_cases h2 : 0xC2 ≤ b0 ∧ b0 ≤ 0xDF ∧ 0x80 ≤ b1 ∧ b1 ≤ 0xBF
    · rw [if_pos h2]
      dsimp only
      rw [fromStrRadix16_pair]
      have hg : ¬goodChunk b0 b1 = true := by
        intro hgg
        exact hv (goodChunk_ascii b0 b1 hgg)
      rw [if_neg hg, if_neg hg,
        if_pos (show validUtf8Chunk b0 b1 = true from (validUtf8Chunk_iff b0 b1).mpr (Or.inr h2))]
    · rw [if_neg h2]
      dsimp only
      have hg : ¬goodChunk b0 b1 = true := by
        intro hgg
        exact hv (goodChunk_ascii b0 b1 hgg)
      have hvv : ¬validUtf8Chunk b0 b1 = true := by
        rw [validUtf8Chunk_iff]
        simp only [not_or]
        exact ⟨hv, h2⟩
      rw [if_neg hg, if_neg hvv]



theorem utf8Decode_single (b : Nat) :
    utf8Decode [b] = if b < 0x80 then some [b] else none := by
  rw [utf8Decode]
  show utf8DecodeFuel 1 [b] = _
  rw [utf8DecodeFuel, utf8Step_single]
  by_cases h : b < 0x80
  · rw [if_pos h, if_pos h]
    rfl
  · rw [if_neg h, if_neg h]

theorem isHexDigitByte_lt (b : Nat) (h : isHexDigitByte b = true) : b < 0x80 := by
  rw [isHexDigitByte] at h
  simp at h
  omega

theorem fromStrRadix16_single (b : Nat) :
    fromStrRadix16 [b] =
      if isHexDigitByte b = true then Except.ok (hexDigitVal b)
      else Except.error "invalid digit found in string" := by
  rw [fromStrRadix16]
  by_cases h43 : b = 43
  · rw [if_pos h43, if_pos (by simp)]
    rw [if_neg (by rw [isHexDigitByte]; simp [h43])]
  · rw [if_neg h43, radixFold, toDigit16_eq]
    by_cases hd : isHexDigitByte b = true
    · rw [if_pos hd]
      dsimp only
      rw [if_neg (by have := hexDigitVal_lt b hd; omega), radixFold, if_pos hd]
      simp
    · rw [if_neg hd, if_neg hd]

theorem parseChunk_single (b : Nat) :
    parseChunk [b] =
      if isHexDigitByte b = true then some (Except.ok (hexDigitVal b))
      else if b < 0x80 then some (Except.error "invalid digit found in string")
      else none := by
  rw [parseChunk, utf8Decode_single]
  by_cases h : b < 0x80
  · rw [if_pos h]
    dsimp only
    rw [fromStrRadix16_single]
    by_cases hd : isHexDigitByte b = true
    · rw [if_pos hd, if_pos hd]
    · rw [if_neg hd, if_neg hd, if_pos h]
  · rw [if_neg h]
    dsimp only
    rw [if_neg (fun hd => h (isHexDigitByte_lt b hd)), if_neg h]

theorem hexChunks_eq_specHexScan : ∀ bs : List Nat, hexChunks bs = specHexScan bs
  | [] => rfl
  | [b] => by
    rw [hexChunks, specHexScan, parseChunk_single]
    by_cases hd : isHexDigitByte b = true
    · rw [if_pos hd, if_pos hd]
    · rw [if_neg hd, if_neg hd]
      by_cases h : b < 0x80
      · rw [if_pos h, if_pos h]
        rfl
      · rw [if_neg h, if_neg h]
  | b0 :: b1 :: rest => by
    rw [hexChunks, specHexScan, parseChunk_pair]
    by_cases hg : goodChunk b0 b1 = true
    · rw [if_pos hg, if_pos hg]
      rw [hexChunks_eq_specHexScan rest]
    · rw [if_neg hg, if_neg hg]
      by_cases hv : validUtf8Chunk b0 b1 = true
      · rw [if_pos hv, if_pos hv]
        rfl
      · rw [if_neg hv, if_neg hv]

theorem hex_to_bytes_eq_spec (hex : List Char) : hex_to_bytes hex = spec_hex_to_bytes hex := by
  rw [hex_to_bytes, spec_hex_to_bytes]
  by_cases h : (strToUtf8 hex).length % 2 = 0
  · rw [if_neg (by omega), if_neg (by omega)]
    exact hexChunks_eq_specHexScan _
  · rw [if_pos (by omega), if_pos (by omega)]



theorem strToUtf8_lt (s : List Char) : ∀ x ∈ strToUtf8 s, x < 256 := by
  intro x hx
  rw [strToUtf8] at hx
  simp only [List.mem_flatMap] at hx
  obtain ⟨c, _, hxc⟩ := hx
  have hv := (char_toNat_lt c).1
  rw [utf8EncodeChar] at hxc
  split_ifs at hxc <;> simp at hxc <;> omega

theorem string_round_trips (s : List Char) :
    hex_to_string (string_to_hex s) = some (Except.ok s) ∧
    bytes_to_string (string_to_bytes s) = Except.ok s := by
  constructor
  · rw [string_to_hex, hex_to_string, hex_to_bytes_bytes_to_hex _ (strToUtf8_lt s)]
    dsimp only
    rw [bytes_to_string_strToUtf8]
  · rw [string_to_bytes]
    exact bytes_to_string_strToUtf8 s

theorem bytes_to_hex_digits (b : List Nat) (hb : ∀ x ∈ b, x < 256) :
    (bytes_to_hex b).all
      (fun c => decide ((48 ≤ c.toNat ∧ c.toNat ≤ 57) ∨ (97 ≤ c.toNat ∧ c.toNat ≤ 102))) = true := by
  induction b with
  | nil => rfl
  | cons x tl ih =>
    have hx : x < 256 := hb x (by simp)
    rw [bytes_to_hex_cons]
    simp only [List.all_cons, Bool.and_eq_true, decide_eq_true_eq]
    refine ⟨?_, ?_, ?_⟩
    · rw [toNat_hexDigitChar _ (by omega : x / 16 < 16)]
      split <;> omega
    · rw [toNat_hexDigitChar _ (by omega : x % 16 < 16)]
      split <;> omega
    · exact ih (fun y hy => hb y (by simp [hy]))

/-! ### Claim theorems for the codec (C1, C2, C4, C5) -/

/-- Claim C1 (amended): `hex_to_bytes` fails on odd byte length; otherwise
it scans the two-byte chunks left to right: a chunk that is two hex digits
(case-insensitive) or a `+` followed by one hex digit contributes one byte
(`+d` having the value of `d`); the first chunk that is neither parseable
nor valid UTF-8 on its own makes the function panic; otherwise the first
non-parseable chunk yields an `InvalidFormat`-style error.  This is stated
as an equality with the specification-side function `spec_hex_to_bytes`,
together with the spec's concrete examples (odd length `"0"`/`"abc"`,
non-hex `"zz"`). -/
theorem claim_C1 :
    (∀ hex : List Char, hex_to_bytes hex = spec_hex_to_bytes hex) ∧
    hex_to_bytes ("0".toList) =
      some (Except.error "Hex string must have an even number of characters") ∧
    hex_to_bytes ("abc".toList) =
      some (Except.error "Hex string must have an even number of characters") ∧
    hex_to_bytes ("zz".toList) =
      some (Except.error "Invalid hex string: invalid digit found in string") :=
  ⟨hex_to_bytes_eq_spec, rfl, rfl, rfl⟩

/-- Claim C1 is false as stated: the input `"+1"` contains `+`, a character
outside `[0-9a-fA-F]`, yet `hex_to_bytes` accepts it (Rust's
`u8::from_str_radix` strips a leading `+` sign), returning `Ok([1])` where
the claim's strict reading rejects it. -/
theorem claim_C1_counterexample :
    hex_to_bytes ("+1".toList) = some (Except.ok [1]) ∧
    claimHexToBytesStrict ("+1".toList) =
      Except.error "Invalid hex string: invalid digit found in string" :=
  ⟨rfl, rfl⟩

/-- Claim C2 is violated by the code: on `"aéb"` (four UTF-8 bytes, so the
odd-length check passes) the first two-byte chunk `[0x61, 0xC3]` splits the
multi-byte character `é`, `std::str::from_utf8(chunk).unwrap()` panics
(modelled by `none`), and no recoverable error value is returned. -/
theorem claim_C2 :
    hex_to_bytes ("aéb".toList) = none ∧
    (strToUtf8 ("aéb".toList)).length = 4 :=
  ⟨rfl, rfl⟩

/-- Claim C4: `bytes_to_hex` never fails (it is a total function here),
produces a string of length 2 × len(b) consisting solely of lowercase hex
digits, and `hex_to_bytes` decodes it back to exactly the input bytes. -/
theorem claim_C4 (b : List Nat) (hb : ∀ x ∈ b, x < 256) :
    hex_to_bytes (bytes_to_hex b) = some (Except.ok b) ∧
    (bytes_to_hex b).length = 2 * b.length ∧
    (bytes_to_hex b).all
      (fun c =>
        decide ((48 ≤ c.toNat ∧ c.toNat ≤ 57) ∨ (97 ≤ c.toNat ∧ c.toNat ≤ 102))) = true :=
  ⟨hex_to_bytes_bytes_to_hex b hb, length_bytes_to_hex b, bytes_to_hex_digits b hb⟩

/-- Witness for claim C4 at the concrete byte sequence from the crate's
doc test (`[15, 255, 0, 128]`, whose hex form is `"0fff0080"`). -/
theorem claim_C4_witness :
    (∀ x ∈ [15, 255, 0, 128], x < 256) ∧
    hex_to_bytes (bytes_to_hex [15, 255, 0, 128]) = some (Except.ok [15, 255, 0, 128]) ∧
    bytes_to_hex [15, 255, 0, 128] = "0fff0080".toList :=
  ⟨by decide, (claim_C4 [15, 255, 0, 128] (by decide)).1, by decide⟩

/-- Claim C5: both string round trips hold for every string:
`hex_to_string (string_to_hex s) = Ok s` (no panic) and
`bytes_to_string (string_to_bytes s) = Ok s`. -/
theorem claim_C5 (s : List Char) :
    hex_to_string (string_to_hex s) = some (Except.ok s) ∧
    bytes_to_string (string_to_bytes s) = Except.ok s :=
  string_round_trips s

/-! ### Claim theorems for the sequence utilities (C6, C7) -/

/-- Claim C6: `split_at_vec v i` succeeds exactly when `i ≤ length v`,
returning the prefix of length `i` and the rest as new sequences and
leaving `v` unchanged (the third component is the vector's final
contents); `i = length` gives `(v, [])`, `i = 0` gives `([], v)`, and
`i > length` panics (the `IndexOutOfBounds`-style signal, modelled by
`none`). -/
theorem claim_C6 {α : Type*} (v : List α) (i : Nat) :
    split_at_vec v i = (if i ≤ v.length then some ((v.take i, v.drop i), v) else none) ∧
    v.take i ++ v.drop i = v ∧
    split_at_vec v v.length = some ((v, []), v) ∧
    split_at_vec v 0 = some (([], v), v) := by
  refine ⟨?_, List.take_append_drop i v, ?_, ?_⟩
  · rw [split_at_vec]
    by_cases h : i ≤ v.length
    · rw [if_neg (by omega), if_pos h]
    · rw [if_pos (by omega), if_neg h]
  · rw [split_at_vec, if_neg (by omega), List.take_length, List.drop_length]
  · rw [split_at_vec, if_neg (by omega)]
    simp

theorem getUniqueGo_eq {α : Type*} [DecidableEq α] :
    ∀ (l seen acc : List α), getUniqueGo seen acc l = acc ++ dedupGo seen l
  | [], seen, acc => by simp [getUniqueGo, dedupGo]
  | e :: rest, seen, acc => by
    rw [getUniqueGo, dedupGo]
    by_cases h : e ∈ seen
    · rw [if_pos h, if_pos h, getUniqueGo_eq rest seen acc]
    · rw [if_neg h, if_neg h, getUniqueGo_eq rest (e :: seen) (acc ++ [e])]
      simp

theorem mem_dedupGo {α : Type*} [DecidableEq α] :
    ∀ (l seen : List α) (a : α), a ∈ dedupGo seen l ↔ a ∈ l ∧ a ∉ seen
  | [], seen, a => by simp [dedupGo]
  | e :: rest, seen, a => by
    rw [dedupGo]
    by_cases h : e ∈ seen
    · rw [if_pos h, mem_dedupGo rest seen a]
      simp only [List.mem_cons]
      constructor
      · rintro ⟨ha, hs⟩
        exact ⟨Or.inr ha, hs⟩
      · rintro ⟨ha | ha, hs⟩
        · exact absurd (ha ▸ h) hs
        · exact ⟨ha, hs⟩
    · rw [if_neg h]
      simp only [List.mem_cons, mem_dedupGo rest (e :: seen) a]
      constructor
      · rintro (rfl | ⟨ha, hs⟩)
        · exact ⟨Or.inl rfl, h⟩
        · exact ⟨Or.inr ha, fun hx => hs (Or.inr hx)⟩
      · rintro ⟨rfl | ha, hs⟩
        · exact Or.inl rfl
        · by_cases hae : a = e
          · exact Or.inl hae
          · exact Or.inr ⟨ha, by simp [hae, hs]⟩

theorem dedupGo_sublist {α : Type*} [DecidableEq α] :
    ∀ (l seen : List α), (dedupGo seen l).Sublist l
  | [], seen => by simp [dedupGo]
  | e :: rest, seen => by
    rw [dedupGo]
    by_cases h : e ∈ seen
    · rw [if_pos h]
      exact (dedupGo_sublist rest seen).cons e
    · rw [if_neg h]
      exact (dedupGo_sublist rest (e :: seen)).cons₂ e

theorem dedupGo_nodup {α : Type*} [DecidableEq α] :
    ∀ (l seen : List α), (dedupGo seen l).Nodup
  | [], seen => by simp [dedupGo]
  | e :: rest, seen => by
    rw [dedupGo]
    by_cases h : e ∈ seen
    · rw [if_pos h]
      exact dedupGo_nodup rest seen
    · rw [if_neg h]
      refine List.nodup_cons.mpr ⟨?_, dedupGo_nodup rest (e :: seen)⟩
      intro hmem
      exact ((mem_dedupGo rest (e :: seen) e).mp hmem).2 (List.mem_cons_self e _)

/-- Claim C7: `dedup` (the new contents of the vector) and `get_unique`
(a new sequence; its input is read only, which the functional embedding
makes implicit) agree on every sequence, keep each distinct element exactly
once (`Nodup` + membership preserved) in order of first occurrence
(a sublist of the input), and both send the spec's example
`[1,2,3,2,4,1,5]` to `[1,2,3,4,5]`. -/
theorem claim_C7 :
    (∀ (α : Type) [DecidableEq α] (v : List α),
      dedup v = get_unique v ∧
      (get_unique v).Nodup ∧
      (get_unique v).Sublist v ∧
      (∀ a, a ∈ get_unique v ↔ a ∈ v)) ∧
    dedup [1, 2, 3, 2, 4, 1, 5] = [1, 2, 3, 4, 5] ∧
    get_unique [1, 2, 3, 2, 4, 1, 5] = [1, 2, 3, 4, 5] := by
  refine ⟨?_, by decide, by decide⟩
  intro α _ v
  have hde : dedup v = get_unique v := by
    rw [dedup, get_unique, getUniqueGo_eq v [] []]
    simp
  refine ⟨hde, ?_, ?_, ?_⟩
  · rw [← hde, dedup]
    exact dedupGo_nodup v []
  · rw [← hde, dedup]
    exact dedupGo_sublist v []
  · intro a
    rw [← hde, dedup, mem_dedupGo v [] a]
    simp

/-! ### Claim theorems for the string utilities (C3, C8, C9, C10) -/

/-- Claim C10: `escape_sql` never fails, first doubles every backslash in
a complete pass and then doubles every single quote in a second complete
pass; because the quote pass leaves backslashes alone, the two passes are
together equivalent to the single simultaneous pass `spec_escape_sql`, so
the inserted backslashes are never re-escaped.  Includes the spec's
example. -/
theorem claim_C10 :
    (∀ input : List Char, escape_sql input = spec_escape_sql input) ∧
    escape_sql ("O\x27Connor\\Path".toList) = "O\x27\x27Connor\\\\Path".toList := by
  refine ⟨?_, by decide⟩
  intro input
  induction input with
  | nil => rfl
  | cons c rest ih =>
    rw [escape_sql, spec_escape_sql] at ih ⊢
    simp only [replaceCharBy, List.flatMap_cons, List.flatMap_append] at ih ⊢
    rw [ih]
    congr 1
    by_cases hb : c = '\\'
    · rw [if_pos hb, if_pos hb]
      rfl
    · rw [if_neg hb, if_neg hb]
      by_cases hq : c = '\x27'
      · subst hq
        rfl
      · simp [hq]



/-- Replacement interpolation is the identity on replacement strings
without a dollar sign. -/
theorem expandRep_no_dollar (m : List Char) :
    ∀ (rep : List Char), '$' ∉ rep → expandRep m rep = rep := by
  intro rep h
  induction rep with
  | nil => simp [expandRep]
  | cons c rest ih =>
    have hc : ¬c = '$' := fun hh => h (hh ▸ List.mem_cons_self c rest)
    rw [expandRep.eq_def]
    dsimp only
    rw [if_neg hc, ih (fun hx => h (List.mem_cons_of_mem c hx))]

/-- Claim C3 (amended): for every template, name and replacement value in
which no `$` occurs, `replace_placeholder` replaces every literal
occurrence of the braced name by the replacement inserted verbatim
(non-overlapping, left to right) and leaves all other text unchanged; it
never fails.  (For replacements containing `$`, the regex crate's
capture-group interpolation applies instead, see the counterexample.) -/
theorem claim_C3 (input placeholder replacement : List Char) (h : '$' ∉ replacement) :
    replace_placeholder input placeholder replacement =
      spec_replace_placeholder input placeholder replacement := by
  rw [replace_placeholder, spec_replace_placeholder, expandRep_no_dollar _ _ h]

/-- Witness for claim C3 at the spec's example: replacing `name` by
`John` only changes the named placeholder. -/
theorem claim_C3_witness :
    ('$' ∉ "John".toList) ∧
    replace_placeholder ("Hello \x7b\x7bname\x7d\x7d! Welcome to \x7b\x7bplace\x7d\x7d.".toList)
        ("name".toList) ("John".toList) =
      "Hello John! Welcome to \x7b\x7bplace\x7d\x7d.".toList :=
  ⟨by decide, by
    rw [claim_C3 _ _ _ (by decide)]
    simp [spec_replace_placeholder, replaceAll]⟩

/-- Claim C3 is false as stated: with replacement value `$0` the code
expands `$0` to the matched text (the placeholder itself) instead of
inserting `$0` verbatim, because `Regex::replace_all` interpolates
capture-group references in the replacement string. -/
theorem claim_C3_counterexample :
    replace_placeholder ("\x7b\x7bname\x7d\x7d".toList) ("name".toList) ("$0".toList) =
      "\x7b\x7bname\x7d\x7d".toList ∧
    spec_replace_placeholder ("\x7b\x7bname\x7d\x7d".toList) ("name".toList) ("$0".toList) =
      "$0".toList := by
  constructor
  · simp [replace_placeholder, replaceAll, expandRep, isCapNameChar]
  · simp [spec_replace_placeholder, replaceAll]



theorem trim_eq_rdrop_drop (s : List Char) :
    trim s = List.rdropWhile isRustWhitespace (s.dropWhile isRustWhitespace) := rfl

theorem dropWhile_rdropWhile_self {α : Type*} (p : α → Bool) (l : List α)
    (h : l.dropWhile p = l) : (l.rdropWhile p).dropWhile p = l.rdropWhile p := by
  rcases hz : l.rdropWhile p with _ | ⟨z0, z'⟩
  · rfl
  · have hpre := List.rdropWhile_prefix (p := p) (l := l)
    rw [hz] at hpre
    obtain ⟨t, ht⟩ := hpre
    cases l with
    | nil => simp [List.rdropWhile_nil] at hz
    | cons c rest =>
      have hz0 : z0 = c := by
        rw [List.cons_append] at ht
        exact (List.cons.injEq _ _ _ _ ▸ ht).1
      have hpc : ¬p c = true := by
        intro hp
        rw [List.dropWhile_cons, if_pos hp] at h
        have := (List.dropWhile_sublist (l := rest) p).length_le
        have := congrArg List.length h
        simp only [List.length_cons] at this
        omega
      rw [List.dropWhile_cons, if_neg (hz0 ▸ hpc)]

theorem trim_trim (s : List Char) : trim (trim s) = trim s := by
  rw [trim_eq_rdrop_drop, trim_eq_rdrop_drop,
    dropWhile_rdropWhile_self _ _ (List.dropWhile_idempotent _ _)]
  exact List.rdropWhile_idempotent _ _

theorem splitComma_ne_nil (s : List Char) : splitComma s ≠ [] := by
  cases s with
  | nil => simp [splitComma]
  | cons c rest =>
    rw [splitComma]
    by_cases hc : c = ','
    · rw [if_pos hc]
      simp
    · rw [if_neg hc]
      rcases h : splitComma rest with _ | ⟨p, ps⟩ <;> simp

theorem splitComma_eq_splitOn (s : List Char) : splitComma s = s.splitOn ',' := by
  induction s with
  | nil => rfl
  | cons c rest ih =>
    rw [splitComma, List.splitOn, List.splitOnP_cons]
    by_cases hc : c = ','
    · rw [if_pos hc, if_pos (by simp [hc]), ih, List.splitOn]
    · rw [if_neg hc, if_neg (by simp [hc])]
      rcases h : splitComma rest with _ | ⟨p, ps⟩
      · exact absurd h (splitComma_ne_nil rest)
      · rw [← List.splitOn, ← ih, h]
        rfl

theorem to_array_eq_spec (s : List Char) :
    to_array s = ((s.splitOn ',').map trim).filter (fun p => !p.isEmpty) := by
  rw [to_array, splitComma_eq_splitOn]

theorem to_array_pieces (s : List Char) :
    (to_array s).all (fun p => !p.isEmpty && (trim p == p)) = true := by
  rw [List.all_eq_true]
  intro p hp
  rw [to_array] at hp
  have hmem := List.mem_filter.mp hp
  obtain ⟨hmap, hne⟩ := hmem
  obtain ⟨q, _, rfl⟩ := List.mem_map.mp hmap
  simp only [Bool.and_eq_true]
  exact ⟨hne, by rw [beq_iff_eq]; exact trim_trim q⟩

theorem splitComma_replicate (n : Nat) :
    splitComma (List.replicate n ',') = List.replicate (n + 1) [] := by
  induction n with
  | zero => rfl
  | succ k ih =>
    rw [List.replicate_succ, splitComma, if_pos rfl, ih]
    rfl

theorem to_array_replicate (n : Nat) : to_array (List.replicate n ',') = [] := by
  rw [to_array, splitComma_replicate]
  induction n with
  | zero => rfl
  | succ k ih =>
    rw [List.replicate_succ, List.map_cons]
    show List.filter _ (trim [] :: _) = []
    rw [List.filter_cons_of_neg (by decide)]
    exact ih



/-- Claim C8: `to_array` equals the spec pipeline - split on commas, trim
each piece (Unicode whitespace, as `str::trim`), drop pieces that are
empty after trimming - never fails, returns pieces in input order with
internal whitespace preserved (the pipeline equality plus the examples
show this), every returned piece is nonempty and trimmed, and empty or
all-comma input yields the empty sequence. -/
theorem claim_C8 :
    (∀ s : List Char, to_array s = ((s.splitOn ',').map trim).filter (fun p => !p.isEmpty)) ∧
    (∀ s : List Char, (to_array s).all (fun p => !p.isEmpty && (trim p == p)) = true) ∧
    to_array [] = [] ∧
    (∀ n : Nat, to_array (List.replicate n ',') = []) ∧
    to_array ("a, , ,b,  ,c".toList) = ["a".toList, "b".toList, "c".toList] ∧
    to_array (",,,".toList) = [] ∧
    to_array ("hello world,foo bar,baz".toList) =
      ["hello world".toList, "foo bar".toList, "baz".toList] :=
  ⟨to_array_eq_spec, to_array_pieces, rfl, to_array_replicate, rfl, rfl, rfl⟩

/-- Claim C9 (amended): for ASCII source and word (the range where the
embedding agrees with the regex crate's Unicode `\b` and `(?i)`),
`is_contain_word` is true iff the word occurs case-insensitively with a
regex word boundary at each end - a position where word-character-ness
changes (word characters: alphanumerics and underscore), not necessarily
a non-word character on the outside.  The word is matched literally. -/
theorem claim_C9 (src word : List Char) (hsrc : ∀ c ∈ src, c.toNat < 128)
    (hword : ∀ c ∈ word, c.toNat < 128) :
    (is_contain_word src word = true ↔ SpecContainWord src word) := by
  rw [is_contain_word, List.any_eq_true]
  constructor
  · rintro ⟨i, _, hf⟩
    simp only [Bool.and_eq_true] at hf
    exact ⟨i, hf.1.1, hf.1.2, hf.2⟩
  · rintro ⟨i, hci, h1, h2⟩
    refine ⟨i, List.mem_range.mpr ?_, ?_⟩
    · rw [ciMatchAt, Bool.and_eq_true, decide_eq_true_eq] at hci
      omega
    · simp only [Bool.and_eq_true]
      exact ⟨⟨hci, h1⟩, h2⟩

/-- Witness for claim C9 at the spec's examples: `"world"` is found in
`"Hello world"` case-insensitively, and `"World"` is not found in
`"HelloWorld"` (no boundary inside a token). -/
theorem claim_C9_witness :
    (∀ c ∈ "Hello world".toList, c.toNat < 128) ∧
    is_contain_word ("Hello world".toList) ("world".toList) = true ∧
    SpecContainWord ("Hello world".toList) ("world".toList) ∧
    is_contain_word ("HelloWorld".toList) ("World".toList) = false :=
  ⟨by decide, by decide,
    (claim_C9 ("Hello world".toList) ("world".toList) (by decide) (by decide)).mp (by decide),
    by decide⟩

/-- Claim C9 is false as stated: `is_contain_word "a!x" "!x"` is true
although the occurrence of `!x` is preceded by the word character `a`,
not by "a non-word character or the string edge" - `\b` only requires
word-character-ness to change, and it does change at `a!`. -/
theorem claim_C9_counterexample :
    is_contain_word ("a!x".toList) ("!x".toList) = true ∧
    claimContainWord ("a!x".toList) ("!x".toList) = false :=
  ⟨by decide, by decide⟩

end Byteutils
